import Mathlib

/-!
# Verification of the `DiagnoseUnknownCompileTimeValues` SIL diagnostic pass

A shallow embedding, in Lean 4, of the compile-time-constant verification
pass implemented in
`lib/SILOptimizer/Mandatory/DiagnoseUnknownCompileTimeValues.cpp`,
together with the constant-evaluator interface it consumes.

The pass walks a SIL module and, for every value that is required to be
known at compile time (a `@const` global initializer, a `@const` local
binding, or an argument bound to a `@const` parameter), asks a constant
evaluator whether the value reduces to a concrete constant; when it does
not, a diagnostic is emitted at the appropriate source location.

The evaluator (`ConstExprFunctionState` / `ConstExprEvaluator`) and the
`SymbolicValue` type live outside the excerpt under verification, so they
are modelled from the specification (doc comments on those definitions
say so explicitly); the pass logic itself is translated directly from the
C++ source.
-/

namespace CTV

/-- Modelled from the spec: the evaluator result type `SymbolicValue`
(`SILConstants.h` is not part of the excerpt).  A closed tagged union:
integer, floating point, string, aggregate (ordered members), or the
terminal `unknown`. -/
inductive SymbolicValue where
  | integer (n : Int)
  | fp (bits : Nat)
  | str (s : String)
  | aggregate (members : List SymbolicValue)
  | unknown

mutual

/-- Modelled from the spec: `SymbolicValue::isConstant` — a value is fully
constant iff no `unknown` occurs at any depth; an aggregate is constant
iff every member is (recursively). -/
def SymbolicValue.isConstant : SymbolicValue → Bool
  | .unknown => false
  | .aggregate ms => SymbolicValue.allConstant ms
  | _ => true

/-- Helper for `SymbolicValue.isConstant`: conjunction over members. -/
def SymbolicValue.allConstant : List SymbolicValue → Bool
  | [] => true
  | m :: ms => m.isConstant && SymbolicValue.allConstant ms

end

mutual

/-- Modelled from the spec: `SymbolicValue::containsOnlyConstants` — the
variant of the constant check used by the static-initializer walk; it
also rejects any value containing `unknown` at any depth. -/
def SymbolicValue.containsOnlyConstants : SymbolicValue → Bool
  | .unknown => false
  | .aggregate ms => SymbolicValue.allContainOnlyConstants ms
  | _ => true

/-- Helper for `SymbolicValue.containsOnlyConstants`. -/
def SymbolicValue.allContainOnlyConstants : List SymbolicValue → Bool
  | [] => true
  | m :: ms => m.containsOnlyConstants && SymbolicValue.allContainOnlyConstants ms

end

/-- A SIL value operand, as seen by the evaluator: literal-producing
instructions, aggregate construction (`struct`), a recognized foldable
builtin (modelled by integer addition), and the catch-all for runtime
values the evaluator does not special-case (loads from mutable memory,
function parameters, opaque calls, ...). -/
inductive Value where
  | intLit (n : Int)
  | floatLit (bits : Nat)
  | strLit (s : String)
  | structMake (operands : List Value)
  | builtinAdd (a b : Value)
  | runtimeVal (id : Nat)

mutual

/-- Decidable structural equality of SIL values (value identity for the
memoization cache). -/
def Value.decEq : (a b : Value) → Decidable (a = b)
  | .intLit a, .intLit b =>
      if h : a = b then .isTrue (h ▸ rfl) else .isFalse (fun e => h (Value.intLit.inj e))
  | .floatLit a, .floatLit b =>
      if h : a = b then .isTrue (h ▸ rfl) else .isFalse (fun e => h (Value.floatLit.inj e))
  | .strLit a, .strLit b =>
      if h : a = b then .isTrue (h ▸ rfl) else .isFalse (fun e => h (Value.strLit.inj e))
  | .structMake as, .structMake bs =>
      match Value.decEqList as bs with
      | .isTrue h => .isTrue (h ▸ rfl)
      | .isFalse h => .isFalse (fun e => h (Value.structMake.inj e))
  | .builtinAdd a1 b1, .builtinAdd a2 b2 =>
      match Value.decEq a1 a2, Value.decEq b1 b2 with
      | .isTrue h1, .isTrue h2 => .isTrue (h1 ▸ h2 ▸ rfl)
      | .isFalse h1, _ => .isFalse (fun e => h1 (Value.builtinAdd.inj e).1)
      | _, .isFalse h2 => .isFalse (fun e => h2 (Value.builtinAdd.inj e).2)
  | .runtimeVal a, .runtimeVal b =>
      if h : a = b then .isTrue (h ▸ rfl) else .isFalse (fun e => h (Value.runtimeVal.inj e))
  | .intLit _, .floatLit _ => .isFalse (fun e => Value.noConfusion e)
  | .intLit _, .strLit _ => .isFalse (fun e => Value.noConfusion e)
  | .intLit _, .structMake _ => .isFalse (fun e => Value.noConfusion e)
  | .intLit _, .builtinAdd _ _ => .isFalse (fun e => Value.noConfusion e)
  | .intLit _, .runtimeVal _ => .isFalse (fun e => Value.noConfusion e)
  | .floatLit _, .intLit _ => .isFalse (fun e => Value.noConfusion e)
  | .floatLit _, .strLit _ => .isFalse (fun e => Value.noConfusion e)
  | .floatLit _, .structMake _ => .isFalse (fun e => Value.noConfusion e)
  | .floatLit _, .builtinAdd _ _ => .isFalse (fun e => Value.noConfusion e)
  | .floatLit _, .runtimeVal _ => .isFalse (fun e => Value.noConfusion e)
  | .strLit _, .intLit _ => .isFalse (fun e => Value.noConfusion e)
  | .strLit _, .floatLit _ => .isFalse (fun e => Value.noConfusion e)
  | .strLit _, .structMake _ => .isFalse (fun e => Value.noConfusion e)
  | .strLit _, .builtinAdd _ _ => .isFalse (fun e => Value.noConfusion e)
  | .strLit _, .runtimeVal _ => .isFalse (fun e => Value.noConfusion e)
  | .structMake _, .intLit _ => .isFalse (fun e => Value.noConfusion e)
  | .structMake _, .floatLit _ => .isFalse (fun e => Value.noConfusion e)
  | .structMake _, .strLit _ => .isFalse (fun e => Value.noConfusion e)
  | .structMake _, .builtinAdd _ _ => .isFalse (fun e => Value.noConfusion e)
  | .structMake _, .runtimeVal _ => .isFalse (fun e => Value.noConfusion e)
  | .builtinAdd _ _, .intLit _ => .isFalse (fun e => Value.noConfusion e)
  | .builtinAdd _ _, .floatLit _ => .isFalse (fun e => Value.noConfusion e)
  | .builtinAdd _ _, .strLit _ => .isFalse (fun e => Value.noConfusion e)
  | .builtinAdd _ _, .structMake _ => .isFalse (fun e => Value.noConfusion e)
  | .builtinAdd _ _, .runtimeVal _ => .isFalse (fun e => Value.noConfusion e)
  | .runtimeVal _, .intLit _ => .isFalse (fun e => Value.noConfusion e)
  | .runtimeVal _, .floatLit _ => .isFalse (fun e => Value.noConfusion e)
  | .runtimeVal _, .strLit _ => .isFalse (fun e => Value.noConfusion e)
  | .runtimeVal _, .structMake _ => .isFalse (fun e => Value.noConfusion e)
  | .runtimeVal _, .builtinAdd _ _ => .isFalse (fun e => Value.noConfusion e)

/-- Decidable equality of operand lists. -/
def Value.decEqList : (as bs : List Value) → Decidable (as = bs)
  | [], [] => .isTrue rfl
  | [], _ :: _ => .isFalse (fun e => List.noConfusion e)
  | _ :: _, [] => .isFalse (fun e => List.noConfusion e)
  | a :: as, b :: bs =>
      match Value.decEq a b, Value.decEqList as bs with
      | .isTrue h1, .isTrue h2 => .isTrue (h1 ▸ h2 ▸ rfl)
      | .isFalse h1, _ => .isFalse (fun e => h1 (List.cons.inj e).1)
      | _, .isFalse h2 => .isFalse (fun e => h2 (List.cons.inj e).2)

end

instance : DecidableEq Value := Value.decEq

/-- Modelled from the spec: the mutable evaluation session shared by one
pass object — the monotone instruction counter checked against the
ceiling, and the per-value memoization cache (`calculatedValues`). -/
structure EvalState where
  counter : Nat
  cache : List (Value × SymbolicValue)

/-- Modelled from the spec: the configured evaluation ceiling
(`ConstExprLimit`) bounding the work of one evaluation request. -/
def evalLimit : Nat := 512

/-- Association-list lookup keyed on the queried SIL value. -/
def cacheLookup : List (Value × SymbolicValue) → Value → Option SymbolicValue
  | [], _ => none
  | (k, r) :: rest, v => if v = k then some r else cacheLookup rest v

mutual

/-- Modelled from the spec: `ConstExprFunctionState::getConstantValue`.
Memoized; bumps the shared counter before each step and aborts to
`unknown` once the counter exceeds the ceiling; literals evaluate to the
corresponding variant; aggregate construction evaluates every operand and
yields an aggregate only when all are constant; a recognized builtin
folds its operands; anything else is `unknown`. -/
def evaluate (v : Value) (s : EvalState) : SymbolicValue × EvalState :=
  match cacheLookup s.cache v with
  | some r => (r, s)
  | none =>
    let c1 := s.counter + 1
    if evalLimit < c1 then
      (.unknown, ⟨c1, (v, SymbolicValue.unknown) :: s.cache⟩)
    else
      match v with
      | .intLit n => (.integer n, ⟨c1, (v, SymbolicValue.integer n) :: s.cache⟩)
      | .floatLit b => (.fp b, ⟨c1, (v, SymbolicValue.fp b) :: s.cache⟩)
      | .strLit t => (.str t, ⟨c1, (v, SymbolicValue.str t) :: s.cache⟩)
      | .structMake ops =>
          let (rs, s2) := evalList ops ⟨c1, s.cache⟩
          let r := if SymbolicValue.allConstant rs then SymbolicValue.aggregate rs
                   else SymbolicValue.unknown
          (r, ⟨s2.counter, (v, r) :: s2.cache⟩)
      | .builtinAdd a b =>
          let (ra, s2) := evaluate a ⟨c1, s.cache⟩
          let (rb, s3) := evaluate b s2
          let r := match ra, rb with
                   | .integer x, .integer y => SymbolicValue.integer (x + y)
                   | _, _ => SymbolicValue.unknown
          (r, ⟨s3.counter, (v, r) :: s3.cache⟩)
      | .runtimeVal _ => (.unknown, ⟨c1, (v, SymbolicValue.unknown) :: s.cache⟩)

/-- Sequential evaluation of an operand list, threading the session. -/
def evalList : List Value → EvalState → List SymbolicValue × EvalState
  | [], s => ([], s)
  | v :: vs, s =>
      let (r, s') := evaluate v s
      let (rs, s'') := evalList vs s'
      (r :: rs, s'')

end

/-! ## The IR and AST surface read by the pass

The pass consumes the SIL module through a small interface: iteration
over globals, functions, basic blocks and instructions; per-declaration
queries (`isConstVal`, source locations); per-global queries (the
declaration and the recorded static-initializer instruction); and
instruction classification.  Each piece is embedded as plain data. -/

/-- A source-level `var`/`let` declaration: its `@const` flag
(`VarDecl::isConstVal`), the location used by `VarDecl::diagnose`, and
`VarDecl::getStartLoc`.  Source locations are plain numbers. -/
structure VarDecl where
  isConstVal : Bool
  loc : Nat
  startLoc : Nat

/-- A function parameter declaration with its `@const` flag. -/
structure ParamDecl where
  isConstVal : Bool

/-- A source-level function declaration: `FuncDecl::getParameters`. -/
structure FuncDecl where
  parameters : List ParamDecl

/-- The two diagnostic ids the pass can emit. -/
inductive DiagKind where
  | requireConstInitializerForConst
  | requireConstArgForParameter
deriving DecidableEq

/-- One emission on the diagnostic sink: a source location and a kind. -/
structure Diagnostic where
  loc : Nat
  kind : DiagKind
deriving DecidableEq

/-- The recorded static-initializer instruction of a global
(`SILGlobalVariable::getStaticInitializerValue`): either a `struct`
aggregate-construction instruction with its operands, or some other
instruction kind (which the `dyn_cast<StructInst>` in the pass rejects). -/
inductive StaticInit where
  | structInst (operands : List Value)
  | nonStructInst

/-- A SIL global variable: its identity (used by `global_addr`
references), its source declaration if any, and its recorded static
initializer if any. -/
structure SILGlobalVariable where
  id : Nat
  decl : Option VarDecl
  staticInit : Option StaticInit

/-- The single use of a `global_addr` result, when there is exactly one:
either a `store` (with the stored operand) or some other user. -/
inductive UseKind where
  | storeUse (src : Value)
  | otherUse

/-- An `apply` site as read by `verifyCallArguments`: the statically
resolved callee's source declaration (`none`: no callee function;
`some none`: a callee function whose location is not a `FuncDecl`), the
SIL argument operands, the apply's own source location, and — when the
`ApplyExpr` AST node is recoverable from the location — the source
locations of its argument list. -/
structure ApplyData where
  calleeDecl : Option (Option FuncDecl)
  args : List Value
  loc : Nat
  argListLocs : Option (List Nat)

/-- The instruction kinds the pass dispatches on; everything else is
`otherInst`.  `globalAddr` carries its referenced global and its single
use (when it has exactly one); `debugValue` carries its bound declaration
(`DebugValueInst::getDecl`, possibly absent) and its operand. -/
inductive Instr where
  | globalAddr (gid : Nat) (singleUse : Option UseKind)
  | debugValue (decl : Option VarDecl) (operand : Value)
  | applyInst (a : ApplyData)
  | otherInst

/-- A SIL function: its basic blocks in layout order, and the results of
the two global-initialization helpers the pass calls on it —
`getVariableOfGlobalInit` (the global this function is the addressor
for, if any; the helper lives outside the excerpt and is modelled as
recorded data) and `findInitializer` (the body of the once-guarded
sub-initializer function it gates, if the idiom matches). -/
structure SILFunction where
  blocks : List (List Instr)
  varOfGlobalInit : Option Nat
  initFn : Option (List (List Instr))

/-- A SIL module: globals and functions, in deterministic order. -/
structure SILModule where
  globals : List SILGlobalVariable
  functions : List SILFunction

/-! ## The verification pass, translated from the C++ source -/

/-- The operand loop of `verifyStaticallyInitializedGlobal`: for each
operand of the `struct` initializer instruction, evaluate it and
diagnose `require_const_initializer_for_const` at the declaration's
location when the result is not `containsOnlyConstants`; the loop
continues through the remaining operands either way. -/
def staticInitLoop (declLoc : Nat) : List Value → EvalState → List Diagnostic × EvalState
  | [], s => ([], s)
  | op :: ops, s =>
      let (r, s') := evaluate op s
      let (ds, s'') := staticInitLoop declLoc ops s'
      if r.containsOnlyConstants then (ds, s'')
      else (⟨declLoc, .requireConstInitializerForConst⟩ :: ds, s'')

/-- `verifyStaticallyInitializedGlobal`: run the operand loop when the
recorded initializer is a `struct` instruction; any other instruction
kind fails the `dyn_cast<StructInst>` and the global is left alone. -/
def verifyStaticallyInitializedGlobal (g : SILGlobalVariable) (d : VarDecl) (s : EvalState) :
    List Diagnostic × EvalState :=
  match g.staticInit with
  | some (.structInst ops) => staticInitLoop d.loc ops s
  | _ => ([], s)

/-- The instruction scan inside `verifyInitializeOnceGlobal`'s
sub-initializer walk: find a `global_addr` of this global; when it has a
single use the C++ asserts the user is a store
(`assert(isa<StoreInst>(SoleUseUser))`) and dereferences the cast, so a
non-store single use is a crash, modelled by `none`.  A store whose
value evaluates to a constant ends the whole check silently
(`some (true, _)`); otherwise the scan continues, finishing with
`some (false, _)`. -/
def scanInitInstrs (gid : Nat) : List Instr → EvalState → Option (Bool × EvalState)
  | [], s => some (false, s)
  | .globalAddr gid' use :: rest, s =>
      if gid' = gid then
        match use with
        | some (.storeUse src) =>
            let (r, s') := evaluate src s
            if r.isConstant then some (true, s')
            else scanInitInstrs gid rest s'
        | some .otherUse => none
        | none => scanInitInstrs gid rest s
      else scanInitInstrs gid rest s
  | _ :: rest, s => scanInitInstrs gid rest s

/-- The function loop of `verifyInitializeOnceGlobal`: every function
whose `getVariableOfGlobalInit` is this global and whose
`findInitializer` succeeds has its sub-initializer's instructions
scanned; a successful constant store returns immediately, otherwise the
loop moves on to the remaining functions. -/
def initOnceLoop (gid : Nat) : List SILFunction → EvalState → Option (Bool × EvalState)
  | [], s => some (false, s)
  | fn :: rest, s =>
      if fn.varOfGlobalInit = some gid then
        match fn.initFn with
        | some blocks =>
            match scanInitInstrs gid blocks.flatten s with
            | none => none
            | some (true, s') => some (true, s')
            | some (false, s') => initOnceLoop gid rest s'
        | none => initOnceLoop gid rest s
      else initOnceLoop gid rest s

/-- `verifyInitializeOnceGlobal`: when the module-wide search finds a
constant store to the global's address the global passes silently;
otherwise one `require_const_initializer_for_const` is emitted at the
declaration's location.  `none` propagates a crash of the scan. -/
def verifyInitializeOnceGlobal (fns : List SILFunction) (g : SILGlobalVariable) (d : VarDecl)
    (s : EvalState) : Option (List Diagnostic × EvalState) :=
  match initOnceLoop g.id fns s with
  | none => none
  | some (true, s') => some ([], s')
  | some (false, s') => some ([⟨d.loc, .requireConstInitializerForConst⟩], s')

/-- The global loop of `verifyGlobals`: every global with a source
declaration marked `@const` is checked, via the static-initializer walk
when a static initializer is recorded and the initialize-once walk
otherwise. -/
def verifyGlobalsLoop (fns : List SILFunction) :
    List SILGlobalVariable → EvalState → Option (List Diagnostic × EvalState)
  | [], s => some ([], s)
  | g :: gs, s =>
      match g.decl with
      | some d =>
          if d.isConstVal then
            match g.staticInit with
            | some _ =>
                let (ds, s') := verifyStaticallyInitializedGlobal g d s
                match verifyGlobalsLoop fns gs s' with
                | none => none
                | some (ds', s'') => some (ds ++ ds', s'')
            | none =>
                match verifyInitializeOnceGlobal fns g d s with
                | none => none
                | some (ds, s') =>
                    match verifyGlobalsLoop fns gs s' with
                    | none => none
                    | some (ds', s'') => some (ds ++ ds', s'')
          else verifyGlobalsLoop fns gs s
      | none => verifyGlobalsLoop fns gs s

/-- `verifyGlobals`. -/
def verifyGlobals (m : SILModule) (s : EvalState) : Option (List Diagnostic × EvalState) :=
  verifyGlobalsLoop m.functions m.globals s

/-- `verifyLocal`: a `debug_value` whose declaration is absent or not
`@const` is ignored; otherwise its operand is evaluated and a
`require_const_arg_for_parameter` is emitted at the declaration's start
location exactly when the result is not constant. -/
def verifyLocal (decl : Option VarDecl) (operand : Value) (s : EvalState) :
    List Diagnostic × EvalState :=
  match decl with
  | none => ([], s)
  | some d =>
      if d.isConstVal then
        let (r, s') := evaluate operand s
        if r.isConstant then ([], s')
        else ([⟨d.startLoc, .requireConstArgForParameter⟩], s')
      else ([], s)

/-- The instruction walk of `verifyLocals` over one function's blocks
(flattened in layout order): dispatch every `debug_value` to
`verifyLocal`. -/
def verifyLocalsInstrs : List Instr → EvalState → List Diagnostic × EvalState
  | [], s => ([], s)
  | .debugValue decl op :: rest, s =>
      let (ds, s') := verifyLocal decl op s
      let (ds', s'') := verifyLocalsInstrs rest s'
      (ds ++ ds', s'')
  | _ :: rest, s => verifyLocalsInstrs rest s

/-- The function walk of `verifyLocals`. -/
def verifyLocalsFns : List SILFunction → EvalState → List Diagnostic × EvalState
  | [], s => ([], s)
  | fn :: rest, s =>
      let (ds, s') := verifyLocalsInstrs fn.blocks.flatten s
      let (ds', s'') := verifyLocalsFns rest s'
      (ds ++ ds', s'')

/-- `verifyLocals`. -/
def verifyLocals (m : SILModule) (s : EvalState) : List Diagnostic × EvalState :=
  verifyLocalsFns m.functions s

/-- The per-argument location computed by the C++ before diagnosing:
`Apply->getLoc().getSourceLoc()` unless the `ApplyExpr` is recoverable,
in which case `ApplyExprNode->getArgs()[i].getLoc()` — an unchecked
index whose out-of-bounds access is a crash, modelled by `none`. -/
def applyArgLoc (a : ApplyData) (i : Nat) : Option Nat :=
  match a.argListLocs with
  | none => some a.loc
  | some L => L[i]?

/-- The parameter loop of `verifyCallArguments(ApplyInst *)`: for index
`i` over the callee's declared parameters, `ApplyArgRefs[i]` is read
unconditionally (an out-of-bounds access — `none` — when the apply has
fewer arguments); for a `@const` parameter the paired argument is
evaluated and a `require_const_arg_for_parameter` is emitted at the
per-argument location when it is not constant. -/
def checkParamsLoop (a : ApplyData) : List ParamDecl → Nat → EvalState →
    Option (List Diagnostic × EvalState)
  | [], _, s => some ([], s)
  | p :: rest, i, s =>
      match a.args[i]? with
      | none => none
      | some arg =>
          if p.isConstVal then
            let (r, s') := evaluate arg s
            if r.isConstant then checkParamsLoop a rest (i + 1) s'
            else
              match applyArgLoc a i with
              | none => none
              | some l =>
                  match checkParamsLoop a rest (i + 1) s' with
                  | none => none
                  | some (ds, s'') =>
                      some (⟨l, .requireConstArgForParameter⟩ :: ds, s'')
          else checkParamsLoop a rest (i + 1) s

/-- `verifyCallArguments(ApplyInst *)`: nothing to do when the callee
cannot be statically resolved, when its location is not a `FuncDecl`, or
when no declared parameter is `@const`; otherwise the parameter loop
runs. -/
def verifyCallArgumentsApply (a : ApplyData) (s : EvalState) :
    Option (List Diagnostic × EvalState) :=
  match a.calleeDecl with
  | none => some ([], s)
  | some none => some ([], s)
  | some (some fd) =>
      if fd.parameters.any (·.isConstVal) then
        checkParamsLoop a fd.parameters 0 s
      else some ([], s)

/-- The instruction walk of `verifyCallArguments` over one function's
blocks: dispatch every `apply`. -/
def verifyCallsInstrs : List Instr → EvalState → Option (List Diagnostic × EvalState)
  | [], s => some ([], s)
  | .applyInst a :: rest, s =>
      match verifyCallArgumentsApply a s with
      | none => none
      | some (ds, s') =>
          match verifyCallsInstrs rest s' with
          | none => none
          | some (ds', s'') => some (ds ++ ds', s'')
  | _ :: rest, s => verifyCallsInstrs rest s

/-- The function walk of `verifyCallArguments`. -/
def verifyCallsFns : List SILFunction → EvalState → Option (List Diagnostic × EvalState)
  | [], s => some ([], s)
  | fn :: rest, s =>
      match verifyCallsInstrs fn.blocks.flatten s with
      | none => none
      | some (ds, s') =>
          match verifyCallsFns rest s' with
          | none => none
          | some (ds', s'') => some (ds ++ ds', s'')

/-- `verifyCallArguments` (module level). -/
def verifyCallArguments (m : SILModule) (s : EvalState) : Option (List Diagnostic × EvalState) :=
  verifyCallsFns m.functions s

/-- `DiagnoseUnknownCompileTimeValues::run`: the three checks in order,
threading the one shared evaluation session owned by the pass object;
diagnostics accumulate in emission order.  `none` models a crash (an
assertion failure or an out-of-bounds operand access) anywhere in the
run. -/
def runPass (m : SILModule) (s : EvalState) : Option (List Diagnostic × EvalState) :=
  match verifyGlobals m s with
  | none => none
  | some (ds1, s1) =>
      let (ds2, s2) := verifyLocals m s1
      match verifyCallArguments m s2 with
      | none => none
      | some (ds3, s3) => some (ds1 ++ ds2 ++ ds3, s3)

/-- State extension: the counter has not decreased and every memoized
entry is preserved with its value. -/
def Extends (s t : EvalState) : Prop :=
  s.counter ≤ t.counter ∧
    ∀ k r, cacheLookup s.cache k = some r → cacheLookup t.cache k = some r

/-- Stability for total session-threading computations. -/
def StableT {α : Type} (f : EvalState → α × EvalState) : Prop :=
  ∀ s, Extends s (f s).2 ∧ ∀ t, Extends (f s).2 t → f t = ((f s).1, t)

/-- Stability for session-threading computations that can crash. -/
def StableO {α : Type} (f : EvalState → Option (α × EvalState)) : Prop :=
  ∀ s a s', f s = some (a, s') →
    Extends s s' ∧ ∀ t, Extends s' t → f t = some (a, t)

/-- Sequencing of total session-threading computations. -/
def bindT {α β : Type} (f : EvalState → α × EvalState)
    (g : α → EvalState → β × EvalState) : EvalState → β × EvalState :=
  fun s => let (a, s') := f s; g a s'

/-- Sequencing of crashing session-threading computations. -/
def bindO {α β : Type} (f : EvalState → Option (α × EvalState))
    (g : α → EvalState → Option (β × EvalState)) :
    EvalState → Option (β × EvalState) :=
  fun s =>
    match f s with
    | none => none
    | some (a, s') => g a s'

/-- A total computation viewed as a crashing one that never crashes. -/
def toO {α : Type} (f : EvalState → α × EvalState) :
    EvalState → Option (α × EvalState) :=
  fun s => some (f s)

/-! ## Characterizations written from the specification's wording

These definitions restate, in the spec's terms, what each check is
supposed to produce; the claim theorems below relate them to the
functions translated from the source. -/

/-- The per-operand evaluation outcomes of a static initializer's
operand loop, in visit order: whether each operand's result contains
only constants. -/
def staticOutcomes : List Value → EvalState → List Bool × EvalState
  | [], s => ([], s)
  | op :: ops, s =>
      let (r, s') := evaluate op s
      let (bs, s'') := staticOutcomes ops s'
      (r.containsOnlyConstants :: bs, s'')

/-- The spec's per-argument location rule: the argument's own source
location when the call expression's argument list is recoverable, the
call's overall source location otherwise. -/
def argLocRule (a : ApplyData) (i : Nat) : Nat :=
  match a.argListLocs with
  | none => a.loc
  | some L => L.getD i a.loc

/-- The paired-argument evaluation outcomes for the `@const` parameters
of a call, in loop order: for each `@const` parameter index `i`, the
pair of `i` and whether the positionally paired argument evaluates to a
constant.  Non-`@const` parameter indices contribute nothing. -/
def callOutcomes (a : ApplyData) : List ParamDecl → Nat → EvalState →
    List (Nat × Bool) × EvalState
  | [], _, s => ([], s)
  | p :: rest, i, s =>
      if p.isConstVal then
        let (r, s') := evaluate (a.args.getD i (Value.intLit 0)) s
        let (os, s'') := callOutcomes a rest (i + 1) s'
        ((i, r.isConstant) :: os, s'')
      else callOutcomes a rest (i + 1) s

/-- An instruction that is a `global_addr` of the given global whose
single use is a store. -/
def storeMatchInstr (gid : Nat) (i : Instr) : Bool :=
  match i with
  | .globalAddr gid' (some (UseKind.storeUse _)) => gid' == gid
  | _ => false

/-- The spec's structural-match condition for an initialize-once global:
some function is recorded as the lazy-initializer gate for this global,
and its sub-initializer contains a `global_addr` of the global whose
single use is a store. -/
def hasStructMatch (fns : List SILFunction) (gid : Nat) : Bool :=
  fns.any (fun fn =>
    fn.varOfGlobalInit == some gid &&
      (match fn.initFn with
       | some blocks => blocks.flatten.any (storeMatchInstr gid)
       | none => false))

/-- The debug binding carried by an instruction, when it is a
`debug_value`. -/
def bindingOf (i : Instr) : Option (Option VarDecl × Value) :=
  match i with
  | .debugValue decl op => some (decl, op)
  | _ => none

/-- The debug bindings of a module in traversal order: every
`debug_value` of every basic block of every function, as a pair of its
bound declaration and its operand. -/
def debugBindings (fns : List SILFunction) : List (Option VarDecl × Value) :=
  (fns.map (fun fn => fn.blocks.flatten)).flatten.filterMap bindingOf

/-- The spec's local-binding rule for one debug binding: a binding whose
declaration is absent or not `@const` produces nothing; otherwise the
bound operand is evaluated and exactly one
`require_const_arg_for_parameter` at the declaration's source location
is produced exactly when the result is not constant. -/
def localBindingSpec (decl : Option VarDecl) (operand : Value) (s : EvalState) :
    List Diagnostic × EvalState :=
  match decl with
  | none => ([], s)
  | some d =>
      if d.isConstVal then
        let (r, s') := evaluate operand s
        (if r.isConstant then []
         else [⟨d.startLoc, DiagKind.requireConstArgForParameter⟩], s')
      else ([], s)

/-- The spec's local-binding check over the module's debug bindings as
one flat sequence. -/
def localsSpecRun : List (Option VarDecl × Value) → EvalState → List Diagnostic × EvalState
  | [], s => ([], s)
  | (decl, op) :: rest, s =>
      let (ds, s') := localBindingSpec decl op s
      let (ds', s'') := localsSpecRun rest s'
      (ds ++ ds', s'')

/-! ## Session-state lemmas

The evaluation session only ever grows: the counter is monotone and
memoized entries are never dropped or overwritten.  Consequently a value
already evaluated re-evaluates to the same result without touching the
state — the key fact behind the pass's idempotence. -/

theorem Extends.rfl (s : EvalState) : Extends s s :=
  ⟨le_refl _, fun _ _ h => h⟩

theorem Extends.trans {s t u : EvalState} (h1 : Extends s t) (h2 : Extends t u) :
    Extends s u :=
  ⟨le_trans h1.1 h2.1, fun k r h => h2.2 k r (h1.2 k r h)⟩

theorem cacheLookup_cons_ne {c : List (Value × SymbolicValue)} {v k : Value}
    {rv : SymbolicValue} (hne : k ≠ v) :
    cacheLookup ((v, rv) :: c) k = cacheLookup c k := by
  simp [cacheLookup, hne]

theorem cacheLookup_cons_self {c : List (Value × SymbolicValue)} {v : Value}
    {rv : SymbolicValue} : cacheLookup ((v, rv) :: c) v = some rv := by
  simp [cacheLookup]

/-- Consing an entry for a key absent from a base cache preserves every
lookup that succeeded in the base cache. -/
theorem lookup_preserved_of_fresh {cb c2 : List (Value × SymbolicValue)} {v : Value}
    {rv : SymbolicValue}
    (hnone : cacheLookup cb v = none)
    (hmid : ∀ k r, cacheLookup cb k = some r → cacheLookup c2 k = some r) :
    ∀ k r, cacheLookup cb k = some r → cacheLookup ((v, rv) :: c2) k = some r := by
  intro k r hk
  have hne : k ≠ v := by rintro rfl; simp [hnone] at hk
  rw [cacheLookup_cons_ne hne]
  exact hmid k r hk

theorem Value.sizeOf_pos (v : Value) : 0 < sizeOf v := by
  cases v <;> simp_arith

mutual

/-- Growth: one evaluation only extends the session, and advances the
counter by at most the size of the queried value. -/
theorem evaluate_growth (v : Value) (s : EvalState) :
    Extends s (evaluate v s).2 ∧ (evaluate v s).2.counter ≤ s.counter + sizeOf v := by
  rw [evaluate]
  cases hc : cacheLookup s.cache v with
  | some r => exact ⟨Extends.rfl s, Nat.le_add_right _ _⟩
  | none =>
      simp only
      split
      · refine ⟨⟨Nat.le_succ _, lookup_preserved_of_fresh hc (fun _ _ hk => hk)⟩, ?_⟩
        show s.counter + 1 ≤ s.counter + sizeOf v
        have := Value.sizeOf_pos v
        omega
      · cases v with
        | intLit n =>
            exact ⟨⟨Nat.le_succ _, lookup_preserved_of_fresh hc (fun _ _ hk => hk)⟩,
              by show s.counter + 1 ≤ s.counter + sizeOf (Value.intLit n); simp_arith⟩
        | floatLit b =>
            exact ⟨⟨Nat.le_succ _, lookup_preserved_of_fresh hc (fun _ _ hk => hk)⟩,
              by show s.counter + 1 ≤ s.counter + sizeOf (Value.floatLit b); simp_arith⟩
        | strLit t =>
            exact ⟨⟨Nat.le_succ _, lookup_preserved_of_fresh hc (fun _ _ hk => hk)⟩,
              by show s.counter + 1 ≤ s.counter + sizeOf (Value.strLit t); simp_arith⟩
        | runtimeVal i =>
            exact ⟨⟨Nat.le_succ _, lookup_preserved_of_fresh hc (fun _ _ hk => hk)⟩,
              by show s.counter + 1 ≤ s.counter + sizeOf (Value.runtimeVal i); simp_arith⟩
        | structMake ops =>
            rcases hl : evalList ops ⟨s.counter + 1, s.cache⟩ with ⟨rs, s2⟩
            have hg := evalList_growth ops ⟨s.counter + 1, s.cache⟩
            rw [hl] at hg
            have hgE : Extends ⟨s.counter + 1, s.cache⟩ s2 := hg.1
            have hgC : s2.counter ≤ s.counter + 1 + sizeOf ops := hg.2
            simp only [hl]
            refine ⟨⟨le_trans (Nat.le_succ _) hgE.1, ?_⟩, ?_⟩
            · exact lookup_preserved_of_fresh hc hgE.2
            · show s2.counter ≤ s.counter + sizeOf (Value.structMake ops)
              have hs : sizeOf (Value.structMake ops) = 1 + sizeOf ops := by simp_arith
              omega
        | builtinAdd a b =>
            rcases ha : evaluate a ⟨s.counter + 1, s.cache⟩ with ⟨ra, s2⟩
            have hga := evaluate_growth a ⟨s.counter + 1, s.cache⟩
            rw [ha] at hga
            have hgaE : Extends ⟨s.counter + 1, s.cache⟩ s2 := hga.1
            have hgaC : s2.counter ≤ s.counter + 1 + sizeOf a := hga.2
            rcases hb : evaluate b s2 with ⟨rb, s3⟩
            have hgb := evaluate_growth b s2
            rw [hb] at hgb
            have hgbE : Extends s2 s3 := hgb.1
            have hgbC : s3.counter ≤ s2.counter + sizeOf b := hgb.2
            simp only [ha, hb]
            refine ⟨⟨le_trans (Nat.le_succ _) (le_trans hgaE.1 hgbE.1), ?_⟩, ?_⟩
            · exact lookup_preserved_of_fresh hc
                (fun k r hk => hgbE.2 k r (hgaE.2 k r hk))
            · show s3.counter ≤ s.counter + sizeOf (Value.builtinAdd a b)
              have hs : sizeOf (Value.builtinAdd a b) = 1 + sizeOf a + sizeOf b := by
                simp_arith
              omega

/-- Growth for sequential evaluation of an operand list. -/
theorem evalList_growth (l : List Value) (s : EvalState) :
    Extends s (evalList l s).2 ∧ (evalList l s).2.counter ≤ s.counter + sizeOf l := by
  match l with
  | [] =>
      refine ⟨Extends.rfl s, ?_⟩
      show s.counter ≤ s.counter + sizeOf ([] : List Value)
      simp_arith
  | v :: vs =>
      rw [evalList]
      rcases hv : evaluate v s with ⟨r, s1⟩
      have hgv := evaluate_growth v s
      rw [hv] at hgv
      have hA : Extends s s1 := hgv.1
      have hB : s1.counter ≤ s.counter + sizeOf v := hgv.2
      rcases hvs : evalList vs s1 with ⟨rs, s2⟩
      have hgvs := evalList_growth vs s1
      rw [hvs] at hgvs
      have hC : Extends s1 s2 := hgvs.1
      have hD : s2.counter ≤ s1.counter + sizeOf vs := hgvs.2
      simp only [hv, hvs]
      refine ⟨Extends.trans hA hC, ?_⟩
      show s2.counter ≤ s.counter + sizeOf (v :: vs)
      have hs : sizeOf (v :: vs) = 1 + sizeOf v + sizeOf vs := by simp_arith
      omega

end

/-- A finished evaluation is memoized: the queried value maps to its
result in the resulting session's cache. -/
theorem evaluate_records (v : Value) (s : EvalState) :
    cacheLookup (evaluate v s).2.cache v = some (evaluate v s).1 := by
  rw [evaluate]
  cases hc : cacheLookup s.cache v with
  | some r => exact hc
  | none =>
      simp only
      split
      · exact cacheLookup_cons_self
      · cases v with
        | intLit n => exact cacheLookup_cons_self
        | floatLit b => exact cacheLookup_cons_self
        | strLit t => exact cacheLookup_cons_self
        | runtimeVal i => exact cacheLookup_cons_self
        | structMake ops =>
            rcases hl : evalList ops ⟨s.counter + 1, s.cache⟩ with ⟨rs, s2⟩
            simp only [hl]
            exact cacheLookup_cons_self
        | builtinAdd a b =>
            rcases ha : evaluate a ⟨s.counter + 1, s.cache⟩ with ⟨ra, s2⟩
            rcases hb : evaluate b s2 with ⟨rb, s3⟩
            simp only [ha, hb]
            exact cacheLookup_cons_self

/-- Cache hit: a memoized value re-evaluates to its memoized result with
the session untouched. -/
theorem evaluate_cache_hit {v : Value} {s : EvalState} {r : SymbolicValue}
    (h : cacheLookup s.cache v = some r) : evaluate v s = (r, s) := by
  rw [evaluate, h]

/-- Ceiling: an uncached query made with the counter already at (or
beyond) the ceiling aborts to `unknown`. -/
theorem evaluate_ceiling {v : Value} {s : EvalState}
    (hm : cacheLookup s.cache v = none) (hc : evalLimit ≤ s.counter) :
    (evaluate v s).1 = SymbolicValue.unknown := by
  rw [evaluate, hm]
  simp only
  rw [if_pos (by omega)]

/-! ## Stability

A session-threading computation is *stable* when it only extends the
session and, replayed from any extension of its final session, produces
the same output while leaving the session untouched.  `runPass` is built
from stable pieces, which is what makes it idempotent. -/

theorem stableT_pure {α : Type} (a : α) : StableT (fun s => (a, s)) :=
  fun s => ⟨Extends.rfl s, fun _ _ => rfl⟩

theorem stableO_pure {α : Type} (a : α) : StableO (fun s => some (a, s)) := by
  intro s b s' h
  simp only at h
  injection h with h1
  injection h1 with h2 h3
  subst h2
  subst h3
  exact ⟨Extends.rfl s, fun _ _ => rfl⟩

theorem stableO_fail {α : Type} : StableO (fun _ => (none : Option (α × EvalState))) := by
  intro s a s' h
  exact Option.noConfusion h

theorem stableT_bind {α β : Type} {f : EvalState → α × EvalState}
    {g : α → EvalState → β × EvalState} (hf : StableT f) (hg : ∀ a, StableT (g a)) :
    StableT (bindT f g) := by
  intro s
  rcases hf1 : f s with ⟨a, s1⟩
  rcases hg1 : g a s1 with ⟨b, s2⟩
  have hfE : Extends s s1 := by have := (hf s).1; rw [hf1] at this; exact this
  have hgE : Extends s1 s2 := by have := (hg a s1).1; rw [hg1] at this; exact this
  have hunf : bindT f g s = (b, s2) := by simp only [bindT, hf1, hg1]
  rw [hunf]
  refine ⟨Extends.trans hfE hgE, ?_⟩
  intro t ht
  have hft : f t = (a, t) := by
    have := (hf s).2 t (by rw [hf1]; exact Extends.trans hgE ht)
    rw [hf1] at this
    exact this
  have hgt : g a t = (b, t) := by
    have := (hg a s1).2 t (by rw [hg1]; exact ht)
    rw [hg1] at this
    exact this
  simp only [bindT, hft, hgt]

theorem stableO_bind {α β : Type} {f : EvalState → Option (α × EvalState)}
    {g : α → EvalState → Option (β × EvalState)} (hf : StableO f)
    (hg : ∀ a, StableO (g a)) : StableO (bindO f g) := by
  intro s b s2 h
  rcases hfs : f s with _ | ⟨a, s1⟩
  · rw [bindO, hfs] at h
    exact Option.noConfusion h
  · rw [bindO, hfs] at h
    simp only at h
    have hfE : Extends s s1 := (hf s a s1 hfs).1
    have hgE : Extends s1 s2 := (hg a s1 b s2 h).1
    refine ⟨Extends.trans hfE hgE, ?_⟩
    intro t ht
    have hft : f t = some (a, t) := (hf s a s1 hfs).2 t (Extends.trans hgE ht)
    have hgt : g a t = some (b, t) := (hg a s1 b s2 h).2 t ht
    rw [bindO, hft]
    exact hgt

theorem stableO_toO {α : Type} {f : EvalState → α × EvalState} (hf : StableT f) :
    StableO (toO f) := by
  intro s a s' h
  rcases hfs : f s with ⟨b, s1⟩
  rw [toO, hfs] at h
  obtain ⟨rfl, rfl⟩ : a = b ∧ s' = s1 := by cases h; exact ⟨rfl, rfl⟩
  have := hf s
  rw [hfs] at this
  refine ⟨this.1, ?_⟩
  intro t ht
  have := this.2 t ht
  rw [toO, this]

/-- `evaluate` is stable: memoization makes re-evaluation a cache hit. -/
theorem stableT_evaluate (v : Value) : StableT (evaluate v) := by
  intro s
  refine ⟨(evaluate_growth v s).1, ?_⟩
  intro t ht
  exact evaluate_cache_hit (ht.2 v (evaluate v s).1 (evaluate_records v s))

theorem stableT_ite {α : Type} (c : Prop) [Decidable c] {f g : EvalState → α × EvalState}
    (hf : StableT f) (hg : StableT g) : StableT (fun s => if c then f s else g s) := by
  by_cases h : c
  · simp only [if_pos h]; exact hf
  · simp only [if_neg h]; exact hg

theorem stableO_ite {α : Type} (c : Prop) [Decidable c]
    {f g : EvalState → Option (α × EvalState)} (hf : StableO f) (hg : StableO g) :
    StableO (fun s => if c then f s else g s) := by
  by_cases h : c
  · simp only [if_pos h]; exact hf
  · simp only [if_neg h]; exact hg

theorem stableT_staticInitLoop (L : Nat) (ops : List Value) :
    StableT (staticInitLoop L ops) := by
  induction ops with
  | nil => exact stableT_pure []
  | cons op rest ih =>
      have he : staticInitLoop L (op :: rest)
          = bindT (evaluate op) (fun r => bindT (staticInitLoop L rest)
              (fun ds s => if r.containsOnlyConstants then (ds, s)
                 else (⟨L, DiagKind.requireConstInitializerForConst⟩ :: ds, s))) := rfl
      rw [he]
      exact stableT_bind (stableT_evaluate op)
        (fun r => stableT_bind ih
          (fun ds => stableT_ite _ (stableT_pure ds) (stableT_pure _)))

theorem stableT_verifyStaticallyInitializedGlobal (g : SILGlobalVariable) (d : VarDecl) :
    StableT (verifyStaticallyInitializedGlobal g d) := by
  rcases hinit : g.staticInit with _ | si
  · have he : verifyStaticallyInitializedGlobal g d = fun s => ([], s) := by
      funext s; simp [verifyStaticallyInitializedGlobal, hinit]
    rw [he]; exact stableT_pure []
  · cases si with
    | structInst ops =>
        have he : verifyStaticallyInitializedGlobal g d = staticInitLoop d.loc ops := by
          funext s; simp [verifyStaticallyInitializedGlobal, hinit]
        rw [he]; exact stableT_staticInitLoop d.loc ops
    | nonStructInst =>
        have he : verifyStaticallyInitializedGlobal g d = fun s => ([], s) := by
          funext s; simp [verifyStaticallyInitializedGlobal, hinit]
        rw [he]; exact stableT_pure []

theorem stableO_scanInitInstrs (gid : Nat) (l : List Instr) :
    StableO (scanInitInstrs gid l) := by
  induction l with
  | nil => exact stableO_pure false
  | cons i rest ih =>
      cases i with
      | globalAddr gid' use =>
          by_cases hg : gid' = gid
          · subst hg
            cases use with
            | none =>
                have he : scanInitInstrs gid' (Instr.globalAddr gid' none :: rest)
                    = scanInitInstrs gid' rest := by
                  funext s; simp [scanInitInstrs]
                rw [he]; exact ih
            | some u =>
                cases u with
                | storeUse src =>
                    have he : scanInitInstrs gid'
                          (Instr.globalAddr gid' (some (UseKind.storeUse src)) :: rest)
                        = bindO (toO (evaluate src)) (fun r s' =>
                            if r.isConstant then some (true, s')
                            else scanInitInstrs gid' rest s') := by
                      funext s; simp [scanInitInstrs, bindO, toO]
                    rw [he]
                    exact stableO_bind (stableO_toO (stableT_evaluate src))
                      (fun r => stableO_ite _ (stableO_pure true) ih)
                | otherUse =>
                    have he : scanInitInstrs gid'
                          (Instr.globalAddr gid' (some UseKind.otherUse) :: rest)
                        = fun _ => none := by
                      funext s; simp [scanInitInstrs]
                    rw [he]; exact stableO_fail
          · have he : scanInitInstrs gid (Instr.globalAddr gid' use :: rest)
                = scanInitInstrs gid rest := by
              funext s; simp [scanInitInstrs, hg]
            rw [he]; exact ih
      | debugValue d o =>
          have he : scanInitInstrs gid (Instr.debugValue d o :: rest)
              = scanInitInstrs gid rest := rfl
          rw [he]; exact ih
      | applyInst a =>
          have he : scanInitInstrs gid (Instr.applyInst a :: rest)
              = scanInitInstrs gid rest := rfl
          rw [he]; exact ih
      | otherInst =>
          have he : scanInitInstrs gid (Instr.otherInst :: rest)
              = scanInitInstrs gid rest := rfl
          rw [he]; exact ih

theorem stableO_initOnceLoop (gid : Nat) (fns : List SILFunction) :
    StableO (initOnceLoop gid fns) := by
  induction fns with
  | nil => exact stableO_pure false
  | cons fn rest ih =>
      by_cases hv : fn.varOfGlobalInit = some gid
      · cases hif : fn.initFn with
        | some blocks =>
            have he : initOnceLoop gid (fn :: rest)
                = bindO (scanInitInstrs gid blocks.flatten)
                    (fun b s' =>
                      match b with
                      | true => some (true, s')
                      | false => initOnceLoop gid rest s') := by
              funext s
              simp only [initOnceLoop, hv, hif, if_true, bindO]
              rcases hscan : scanInitInstrs gid blocks.flatten s with _ | ⟨b, s'⟩
              · simp
              · cases b <;> simp
            rw [he]
            refine stableO_bind (stableO_scanInitInstrs gid blocks.flatten) ?_
            intro b
            cases b with
            | false => exact ih
            | true => exact stableO_pure true
        | none =>
            have he : initOnceLoop gid (fn :: rest) = initOnceLoop gid rest := by
              funext s; simp [initOnceLoop, hv, hif]
            rw [he]; exact ih
      · have he : initOnceLoop gid (fn :: rest) = initOnceLoop gid rest := by
          funext s; simp [initOnceLoop, hv]
        rw [he]; exact ih

theorem stableO_verifyInitializeOnceGlobal (fns : List SILFunction)
    (g : SILGlobalVariable) (d : VarDecl) :
    StableO (verifyInitializeOnceGlobal fns g d) := by
  have he : verifyInitializeOnceGlobal fns g d
      = bindO (initOnceLoop g.id fns)
          (fun b s' =>
            match b with
            | true => some ([], s')
            | false => some ([⟨d.loc, DiagKind.requireConstInitializerForConst⟩], s')) := by
    funext s
    simp only [verifyInitializeOnceGlobal, bindO]
    rcases hloop : initOnceLoop g.id fns s with _ | ⟨b, s'⟩
    · simp
    · cases b <;> simp
  rw [he]
  refine stableO_bind (stableO_initOnceLoop g.id fns) ?_
  intro b
  cases b with
  | false => exact stableO_pure _
  | true => exact stableO_pure _

theorem stableO_verifyGlobalsLoop (fns : List SILFunction) (gs : List SILGlobalVariable) :
    StableO (verifyGlobalsLoop fns gs) := by
  induction gs with
  | nil => exact stableO_pure []
  | cons g rest ih =>
      cases hd : g.decl with
      | none =>
          have he : verifyGlobalsLoop fns (g :: rest) = verifyGlobalsLoop fns rest := by
            funext s; simp [verifyGlobalsLoop, hd]
          rw [he]; exact ih
      | some d =>
          by_cases hc : d.isConstVal
          · cases hsi : g.staticInit with
            | some si =>
                have he : verifyGlobalsLoop fns (g :: rest)
                    = bindO (toO (verifyStaticallyInitializedGlobal g d))
                        (fun ds => bindO (verifyGlobalsLoop fns rest)
                          (fun ds' s'' => some (ds ++ ds', s''))) := by
                  funext s
                  simp only [verifyGlobalsLoop, hd, hc, hsi, if_true, bindO, toO]
                  rcases hrest : verifyGlobalsLoop fns rest
                      (verifyStaticallyInitializedGlobal g d s).2 with _ | ⟨ds', s''⟩ <;>
                    simp [hrest]
                rw [he]
                exact stableO_bind (stableO_toO (stableT_verifyStaticallyInitializedGlobal g d))
                  (fun ds => stableO_bind ih (fun ds' => stableO_pure _))
            | none =>
                have he : verifyGlobalsLoop fns (g :: rest)
                    = bindO (verifyInitializeOnceGlobal fns g d)
                        (fun ds => bindO (verifyGlobalsLoop fns rest)
                          (fun ds' s'' => some (ds ++ ds', s''))) := by
                  funext s
                  simp only [verifyGlobalsLoop, hd, hc, hsi, if_true, bindO]
                  rcases hio : verifyInitializeOnceGlobal fns g d s with _ | ⟨ds, s'⟩
                  · simp
                  · rcases hrest : verifyGlobalsLoop fns rest s' with _ | ⟨ds', s''⟩ <;>
                      simp [hrest]
                rw [he]
                exact stableO_bind (stableO_verifyInitializeOnceGlobal fns g d)
                  (fun ds => stableO_bind ih (fun ds' => stableO_pure _))
          · have he : verifyGlobalsLoop fns (g :: rest) = verifyGlobalsLoop fns rest := by
              funext s; simp [verifyGlobalsLoop, hd, hc]
            rw [he]; exact ih

theorem stableT_verifyLocal (decl : Option VarDecl) (operand : Value) :
    StableT (verifyLocal decl operand) := by
  cases decl with
  | none => exact stableT_pure []
  | some d =>
      by_cases hc : d.isConstVal
      · have he : verifyLocal (some d) operand
            = bindT (evaluate operand) (fun r s' =>
                if r.isConstant then ([], s')
                else ([⟨d.startLoc, DiagKind.requireConstArgForParameter⟩], s')) := by
          funext s; simp [verifyLocal, hc, bindT]
        rw [he]
        exact stableT_bind (stableT_evaluate operand)
          (fun r => stableT_ite _ (stableT_pure _) (stableT_pure _))
      · have he : verifyLocal (some d) operand = fun s => ([], s) := by
          funext s; simp [verifyLocal, hc]
        rw [he]; exact stableT_pure []

theorem stableT_verifyLocalsInstrs (l : List Instr) : StableT (verifyLocalsInstrs l) := by
  induction l with
  | nil => exact stableT_pure []
  | cons i rest ih =>
      cases i with
      | debugValue decl op =>
          have he : verifyLocalsInstrs (Instr.debugValue decl op :: rest)
              = bindT (verifyLocal decl op) (fun ds => bindT (verifyLocalsInstrs rest)
                  (fun ds' s'' => (ds ++ ds', s''))) := rfl
          rw [he]
          exact stableT_bind (stableT_verifyLocal decl op)
            (fun ds => stableT_bind ih (fun ds' => stableT_pure _))
      | globalAddr gid use => exact ih
      | applyInst a => exact ih
      | otherInst => exact ih

theorem stableT_verifyLocalsFns (fns : List SILFunction) : StableT (verifyLocalsFns fns) := by
  induction fns with
  | nil => exact stableT_pure []
  | cons fn rest ih =>
      have he : verifyLocalsFns (fn :: rest)
          = bindT (verifyLocalsInstrs fn.blocks.flatten) (fun ds => bindT (verifyLocalsFns rest)
              (fun ds' s'' => (ds ++ ds', s''))) := rfl
      rw [he]
      exact stableT_bind (stableT_verifyLocalsInstrs fn.blocks.flatten)
        (fun ds => stableT_bind ih (fun ds' => stableT_pure _))

theorem stableO_checkParamsLoop (a : ApplyData) (ps : List ParamDecl) :
    ∀ (i : Nat), StableO (checkParamsLoop a ps i) := by
  induction ps with
  | nil => intro i; exact stableO_pure []
  | cons p rest ih =>
      intro i
      cases harg : a.args[i]? with
      | none =>
          have he : checkParamsLoop a (p :: rest) i = fun _ => none := by
            funext s; simp [checkParamsLoop, harg]
          rw [he]; exact stableO_fail
      | some arg =>
          by_cases hp : p.isConstVal
          · have he : checkParamsLoop a (p :: rest) i
                = bindO (toO (evaluate arg)) (fun r s' =>
                    if r.isConstant then checkParamsLoop a rest (i + 1) s'
                    else
                      match applyArgLoc a i with
                      | none => none
                      | some l =>
                          match checkParamsLoop a rest (i + 1) s' with
                          | none => none
                          | some (ds, s'') =>
                              some (⟨l, DiagKind.requireConstArgForParameter⟩ :: ds, s'')) := by
              funext s; simp [checkParamsLoop, harg, hp, bindO, toO]
            rw [he]
            refine stableO_bind (stableO_toO (stableT_evaluate arg)) ?_
            intro r
            refine stableO_ite _ (ih (i + 1)) ?_
            cases hloc : applyArgLoc a i with
            | none => exact stableO_fail
            | some l =>
                show StableO (fun s' =>
                    match checkParamsLoop a rest (i + 1) s' with
                    | none => none
                    | some (ds, s'') =>
                        some (⟨l, DiagKind.requireConstArgForParameter⟩ :: ds, s''))
                have he2 : (fun s' =>
                    match checkParamsLoop a rest (i + 1) s' with
                    | none => none
                    | some (ds, s'') =>
                        some (⟨l, DiagKind.requireConstArgForParameter⟩ :: ds, s''))
                    = bindO (checkParamsLoop a rest (i + 1))
                        (fun ds s'' =>
                          some (⟨l, DiagKind.requireConstArgForParameter⟩ :: ds, s'')) := by
                  funext s'
                  simp only [bindO]
                  rcases hr : checkParamsLoop a rest (i + 1) s' with _ | ⟨ds, s''⟩ <;> simp
                rw [he2]
                exact stableO_bind (ih (i + 1)) (fun ds => stableO_pure _)
          · have he : checkParamsLoop a (p :: rest) i = checkParamsLoop a rest (i + 1) := by
              funext s; simp [checkParamsLoop, harg, hp]
            rw [he]; exact ih (i + 1)

theorem stableO_verifyCallArgumentsApply (a : ApplyData) :
    StableO (verifyCallArgumentsApply a) := by
  cases hcd : a.calleeDecl with
  | none =>
      have he : verifyCallArgumentsApply a = fun s => some ([], s) := by
        funext s; simp [verifyCallArgumentsApply, hcd]
      rw [he]; exact stableO_pure []
  | some od =>
      cases od with
      | none =>
          have he : verifyCallArgumentsApply a = fun s => some ([], s) := by
            funext s; simp [verifyCallArgumentsApply, hcd]
          rw [he]; exact stableO_pure []
      | some fd =>
          by_cases hany : fd.parameters.any (·.isConstVal)
          · have he : verifyCallArgumentsApply a = checkParamsLoop a fd.parameters 0 := by
              funext s; simp [verifyCallArgumentsApply, hcd, hany]
            rw [he]; exact stableO_checkParamsLoop a fd.parameters 0
          · have he : verifyCallArgumentsApply a = fun s => some ([], s) := by
              funext s; simp [verifyCallArgumentsApply, hcd, hany]
            rw [he]; exact stableO_pure []

theorem stableO_verifyCallsInstrs (l : List Instr) : StableO (verifyCallsInstrs l) := by
  induction l with
  | nil => exact stableO_pure []
  | cons i rest ih =>
      cases i with
      | applyInst a =>
          have he : verifyCallsInstrs (Instr.applyInst a :: rest)
              = bindO (verifyCallArgumentsApply a) (fun ds => bindO (verifyCallsInstrs rest)
                  (fun ds' s'' => some (ds ++ ds', s''))) := by
            funext s
            simp only [verifyCallsInstrs, bindO]
            rcases hv : verifyCallArgumentsApply a s with _ | ⟨ds, s'⟩
            · simp
            · rcases hr : verifyCallsInstrs rest s' with _ | ⟨ds', s''⟩ <;> simp [hr]
          rw [he]
          exact stableO_bind (stableO_verifyCallArgumentsApply a)
            (fun ds => stableO_bind ih (fun ds' => stableO_pure _))
      | globalAddr gid use => exact ih
      | debugValue decl op => exact ih
      | otherInst => exact ih

theorem stableO_verifyCallsFns (fns : List SILFunction) : StableO (verifyCallsFns fns) := by
  induction fns with
  | nil => exact stableO_pure []
  | cons fn rest ih =>
      have he : verifyCallsFns (fn :: rest)
          = bindO (verifyCallsInstrs fn.blocks.flatten) (fun ds => bindO (verifyCallsFns rest)
              (fun ds' s'' => some (ds ++ ds', s''))) := by
        funext s
        simp only [verifyCallsFns, bindO]
        rcases hv : verifyCallsInstrs fn.blocks.flatten s with _ | ⟨ds, s'⟩
        · simp
        · rcases hr : verifyCallsFns rest s' with _ | ⟨ds', s''⟩ <;> simp [hr]
      rw [he]
      exact stableO_bind (stableO_verifyCallsInstrs fn.blocks.flatten)
        (fun ds => stableO_bind ih (fun ds' => stableO_pure _))

theorem stableO_runPass (m : SILModule) : StableO (runPass m) := by
  have he : runPass m
      = bindO (verifyGlobalsLoop m.functions m.globals) (fun ds1 =>
          bindO (toO (verifyLocalsFns m.functions)) (fun ds2 =>
            bindO (verifyCallsFns m.functions)
              (fun ds3 s3 => some (ds1 ++ ds2 ++ ds3, s3)))) := by
    funext s
    simp only [runPass, verifyGlobals, verifyLocals, verifyCallArguments, bindO, toO]
    rcases hg : verifyGlobalsLoop m.functions m.globals s with _ | ⟨ds1, s1⟩
    · simp
    · rcases hl : verifyLocalsFns m.functions s1 with ⟨ds2, s2⟩
      rcases hc : verifyCallsFns m.functions s2 with _ | ⟨ds3, s3⟩ <;> simp [hl, hc]
  rw [he]
  exact stableO_bind (stableO_verifyGlobalsLoop m.functions m.globals)
    (fun ds1 => stableO_bind (stableO_toO (stableT_verifyLocalsFns m.functions))
      (fun ds2 => stableO_bind (stableO_verifyCallsFns m.functions)
        (fun ds3 => stableO_pure _)))

/-! ## Claim theorems -/

/-- The operand loop emits exactly one diagnostic per operand whose
outcome is "not only constants", at the given location, in visit
order. -/
theorem staticInitLoop_eq_outcomes (L : Nat) (ops : List Value) : ∀ (s : EvalState),
    staticInitLoop L ops s
      = ((staticOutcomes ops s).1.filterMap
          (fun b => if b then none
            else some ⟨L, DiagKind.requireConstInitializerForConst⟩),
         (staticOutcomes ops s).2) := by
  induction ops with
  | nil => intro s; rfl
  | cons op rest ih =>
      intro s
      rcases ho : evaluate op s with ⟨r, s1⟩
      rcases hso : staticOutcomes rest s1 with ⟨bs, s2⟩
      have hih := ih s1
      rw [hso] at hih
      simp only [staticInitLoop, staticOutcomes, ho, hso, hih]
      cases hb : r.containsOnlyConstants <;> simp [List.filterMap_cons]

/-- **C2** — corrected.  The claim says the static-initializer check
emits at most one `require_const_initializer_for_const` per global and
stops at the first offending operand.  In fact the operand loop
continues and diagnoses *every* offending operand: the diagnostics of a
`@const` global with a `struct` static initializer are exactly one
diagnostic, at the declaration's location, per operand whose result is
not made of constants only. -/
theorem verifyStatic_diag_per_offending_operand (g : SILGlobalVariable) (d : VarDecl)
    (ops : List Value) (s : EvalState)
    (h : g.staticInit = some (StaticInit.structInst ops)) :
    verifyStaticallyInitializedGlobal g d s
      = ((staticOutcomes ops s).1.filterMap
          (fun b => if b then none
            else some ⟨d.loc, DiagKind.requireConstInitializerForConst⟩),
         (staticOutcomes ops s).2) := by
  simp only [verifyStaticallyInitializedGlobal, h]
  exact staticInitLoop_eq_outcomes d.loc ops s

/-- Witness for the corrected C2 theorem at a concrete global whose
`struct` initializer has one non-constant and one constant operand. -/
theorem verifyStatic_diag_per_offending_operand_witness :
    (⟨1, some ⟨true, 7, 8⟩,
        some (StaticInit.structInst [Value.runtimeVal 0, Value.intLit 1])⟩
      : SILGlobalVariable).staticInit
        = some (StaticInit.structInst [Value.runtimeVal 0, Value.intLit 1]) ∧
    verifyStaticallyInitializedGlobal
        ⟨1, some ⟨true, 7, 8⟩,
          some (StaticInit.structInst [Value.runtimeVal 0, Value.intLit 1])⟩
        ⟨true, 7, 8⟩ ⟨0, []⟩
      = ((staticOutcomes [Value.runtimeVal 0, Value.intLit 1] ⟨0, []⟩).1.filterMap
          (fun b => if b then none
            else some ⟨(7 : Nat), DiagKind.requireConstInitializerForConst⟩),
         (staticOutcomes [Value.runtimeVal 0, Value.intLit 1] ⟨0, []⟩).2) :=
  ⟨rfl, verifyStatic_diag_per_offending_operand _ _ _ _ rfl⟩

/-- **C2** — counterexample to the claim as stated: a `@const` global
whose `struct` initializer has two non-constant operands receives two
diagnostics (one per offending operand), not at most one with checking
stopped after the first. -/
theorem verifyStatic_two_diags_for_two_operands :
    (verifyStaticallyInitializedGlobal
        ⟨0, some ⟨true, 7, 8⟩,
          some (StaticInit.structInst [Value.runtimeVal 0, Value.runtimeVal 1])⟩
        ⟨true, 7, 8⟩ ⟨0, []⟩).1
      = [⟨7, DiagKind.requireConstInitializerForConst⟩,
         ⟨7, DiagKind.requireConstInitializerForConst⟩] := rfl

/-- **C9** — confirmed.  A `@const` global whose recorded static
initializer is not a `struct` aggregate-construction instruction is left
alone: no diagnostic, and no operand is evaluated (the session is
untouched). -/
theorem verifyStatic_nonstruct_silent (g : SILGlobalVariable) (d : VarDecl) (s : EvalState)
    (h : g.staticInit = some StaticInit.nonStructInst) :
    verifyStaticallyInitializedGlobal g d s = ([], s) := by
  simp [verifyStaticallyInitializedGlobal, h]

/-- Witness for C9 at a concrete global with a non-`struct` static
initializer. -/
theorem verifyStatic_nonstruct_silent_witness :
    (⟨2, some ⟨true, 5, 6⟩, some StaticInit.nonStructInst⟩
      : SILGlobalVariable).staticInit = some StaticInit.nonStructInst ∧
    verifyStaticallyInitializedGlobal
        ⟨2, some ⟨true, 5, 6⟩, some StaticInit.nonStructInst⟩ ⟨true, 5, 6⟩ ⟨0, []⟩
      = ([], ⟨0, []⟩) :=
  ⟨rfl, verifyStatic_nonstruct_silent _ _ _ rfl⟩

/-- **C3** — the code, not the claim: when the single use of the
`global_addr` of a `@const` initialize-once global is not a store, the
C++ fails `assert(isa<StoreInst>(SoleUseUser))` (and dereferences a null
`dyn_cast` with assertions disabled) instead of conservatively
diagnosing; the embedded check crashes (`none`) on a concrete module
exhibiting that shape. -/
theorem verifyInitializeOnce_nonstore_crash :
    verifyInitializeOnceGlobal
        [⟨[], some 9, some [[Instr.globalAddr 9 (some UseKind.otherUse)]]⟩]
        ⟨9, some ⟨true, 4, 4⟩, none⟩ ⟨true, 4, 4⟩ ⟨0, []⟩
      = none := rfl

/-- **C1** — the code, not the claim: the parameter loop reads
`ApplyArgRefs[i]` for every declared parameter index with no bounds
check, so a call whose argument count is smaller than the callee's
parameter count is an out-of-bounds access (`none`), not a skipped
index: here a callee declared with one `@const` parameter applied to
zero arguments. -/
theorem verifyCallArguments_oob_crash :
    verifyCallArgumentsApply ⟨some (some ⟨[⟨true⟩]⟩), [], 3, none⟩ ⟨0, []⟩ = none := rfl

/-- **C10** — confirmed.  A call whose callee function cannot be
statically resolved, or whose resolved callee has no source-level
`FuncDecl`, produces no diagnostics at all — whatever its arguments
are. -/
theorem verifyCallArguments_unresolved_silent (a : ApplyData) (s : EvalState)
    (h : a.calleeDecl = none ∨ a.calleeDecl = some none) :
    verifyCallArgumentsApply a s = some ([], s) := by
  rcases h with h | h <;> simp [verifyCallArgumentsApply, h]

/-- Witness for C10: a call with an unresolvable callee and a
non-constant argument produces no diagnostics. -/
theorem verifyCallArguments_unresolved_silent_witness :
    ((⟨none, [Value.runtimeVal 3], 2, none⟩ : ApplyData).calleeDecl = none ∨
      (⟨none, [Value.runtimeVal 3], 2, none⟩ : ApplyData).calleeDecl = some none) ∧
    verifyCallArgumentsApply ⟨none, [Value.runtimeVal 3], 2, none⟩ ⟨0, []⟩
      = some ([], ⟨0, []⟩) :=
  ⟨Or.inl rfl, verifyCallArguments_unresolved_silent _ _ (Or.inl rfl)⟩

/-- **C7** — confirmed.  Running the pass a second time on the same
module, from the session the first run left behind (the pass object's
evaluator state, instruction counter and allocator are shared across
invocations), produces exactly the same diagnostics in the same order:
every evaluation of the second run is a memoized cache hit. -/
theorem runPass_idempotent (m : SILModule) (s : EvalState) (ds : List Diagnostic)
    (s' : EvalState) (h : runPass m s = some (ds, s')) :
    runPass m s' = some (ds, s') :=
  ((stableO_runPass m) s ds s' h).2 s' (Extends.rfl s')

/-- Witness for C7 on a concrete module with one `@const` local
binding. -/
theorem runPass_idempotent_witness :
    runPass ⟨[], [⟨[[Instr.debugValue (some ⟨true, 1, 2⟩) (Value.intLit 5)]], none, none⟩]⟩
        ⟨0, []⟩
      = some ([], ⟨1, [(Value.intLit 5, SymbolicValue.integer 5)]⟩) ∧
    runPass ⟨[], [⟨[[Instr.debugValue (some ⟨true, 1, 2⟩) (Value.intLit 5)]], none, none⟩]⟩
        ⟨1, [(Value.intLit 5, SymbolicValue.integer 5)]⟩
      = some ([], ⟨1, [(Value.intLit 5, SymbolicValue.integer 5)]⟩) :=
  ⟨rfl, runPass_idempotent _ ⟨0, []⟩ _ _ rfl⟩

/-- **C8** — confirmed.  The evaluator is total: every query returns a
`SymbolicValue` while advancing the shared counter by at most the size
of the queried value (so every evaluation terminates in bounded steps,
whatever the nesting depth), and an uncached query made with the counter
already at the ceiling aborts to `unknown` instead of looping or
crashing. -/
theorem evaluate_total_and_bounded (v : Value) (s : EvalState) :
    (evaluate v s).2.counter ≤ s.counter + sizeOf v ∧
      (cacheLookup s.cache v = none → evalLimit ≤ s.counter →
        (evaluate v s).1 = SymbolicValue.unknown) :=
  ⟨(evaluate_growth v s).2, fun hm hc => evaluate_ceiling hm hc⟩

/-- One debug binding: the pass's `verifyLocal` agrees with the spec's
local-binding rule. -/
theorem verifyLocal_eq_spec (decl : Option VarDecl) (op : Value) (s : EvalState) :
    verifyLocal decl op s = localBindingSpec decl op s := by
  cases decl with
  | none => rfl
  | some d =>
      by_cases hc : d.isConstVal
      · rcases he : evaluate op s with ⟨r, s'⟩
        simp only [verifyLocal, localBindingSpec, hc, if_true, he]
        cases hb : r.isConstant <;> simp
      · simp [verifyLocal, localBindingSpec, hc]

/-- The spec-side run distributes over concatenation of binding lists. -/
theorem localsSpecRun_append (xs ys : List (Option VarDecl × Value)) : ∀ (s : EvalState),
    localsSpecRun (xs ++ ys) s
      = ((localsSpecRun xs s).1 ++ (localsSpecRun ys (localsSpecRun xs s).2).1,
         (localsSpecRun ys (localsSpecRun xs s).2).2) := by
  induction xs with
  | nil => intro s; simp [localsSpecRun]
  | cons x rest ih =>
      intro s
      rcases x with ⟨decl, op⟩
      rcases hb : localBindingSpec decl op s with ⟨ds, s1⟩
      rcases hr : localsSpecRun rest s1 with ⟨ds1, s2⟩
      have hih := ih s1
      rw [hr] at hih
      have hih' : localsSpecRun (rest ++ ys) s1
          = (ds1 ++ (localsSpecRun ys s2).1, (localsSpecRun ys s2).2) := hih
      simp only [List.cons_append, localsSpecRun, hb, hr, hih']
      simp [hih', List.append_assoc]

/-- One function's instruction walk agrees with the spec-side run over
the debug bindings it contains. -/
theorem verifyLocalsInstrs_eq_spec (l : List Instr) : ∀ (s : EvalState),
    verifyLocalsInstrs l s = localsSpecRun (l.filterMap bindingOf) s := by
  induction l with
  | nil => intro s; rfl
  | cons i rest ih =>
      intro s
      cases i with
      | debugValue decl op =>
          rcases hv : verifyLocal decl op s with ⟨ds, s1⟩
          have hspec : localBindingSpec decl op s = (ds, s1) := by
            rw [← verifyLocal_eq_spec, hv]
          simp only [verifyLocalsInstrs, hv, List.filterMap_cons, bindingOf,
            localsSpecRun, hspec, ih s1]
      | globalAddr gid use =>
          simp only [verifyLocalsInstrs, List.filterMap_cons, bindingOf, ih s]
      | applyInst a =>
          simp only [verifyLocalsInstrs, List.filterMap_cons, bindingOf, ih s]
      | otherInst =>
          simp only [verifyLocalsInstrs, List.filterMap_cons, bindingOf, ih s]

/-- **C5** — confirmed.  The local-binding check processes exactly the
debug bindings of every basic block of every function, in traversal
order, and for each one follows the spec's rule: bindings whose
declaration is absent or not `@const` are ignored; otherwise the bound
operand is evaluated and exactly one `require_const_arg_for_parameter`
at the declaration's source location is emitted exactly when the result
is not constant. -/
theorem verifyLocals_eq_spec (m : SILModule) (s : EvalState) :
    verifyLocals m s = localsSpecRun (debugBindings m.functions) s := by
  rw [verifyLocals]
  generalize m.functions = fns
  induction fns generalizing s with
  | nil => rfl
  | cons fn rest ih =>
      rcases hv : verifyLocalsInstrs fn.blocks.flatten s with ⟨ds, s1⟩
      have h1 : localsSpecRun (fn.blocks.flatten.filterMap bindingOf) s = (ds, s1) := by
        rw [← verifyLocalsInstrs_eq_spec, hv]
      have hdb : debugBindings (fn :: rest)
          = fn.blocks.flatten.filterMap bindingOf ++ debugBindings rest := by
        simp [debugBindings]
      rcases hrest : verifyLocalsFns rest s1 with ⟨ds1, s2⟩
      have hih := ih s1
      rw [hrest] at hih
      rw [hdb, localsSpecRun_append]
      simp only [h1, verifyLocalsFns, hv, hrest, hih]

/-- With no structural store match among the given instructions, the
sub-initializer scan either crashes on a non-store single use or
finishes without success, touching nothing. -/
theorem scanInitInstrs_no_match (gid : Nat) : ∀ (l : List Instr),
    l.any (storeMatchInstr gid) = false → ∀ (s : EvalState),
    scanInitInstrs gid l s = none ∨ scanInitInstrs gid l s = some (false, s) := by
  intro l
  induction l with
  | nil => intro _ s; right; rfl
  | cons i rest ih =>
      intro hm s
      rw [List.any_cons] at hm
      obtain ⟨hm1, hm2⟩ := Bool.or_eq_false_iff.mp hm
      cases i with
      | globalAddr gid' use =>
          by_cases hg : gid' = gid
          · subst hg
            cases use with
            | none =>
                rcases ih hm2 s with hs | hs
                · left; simpa [scanInitInstrs] using hs
                · right; simpa [scanInitInstrs] using hs
            | some u =>
                cases u with
                | storeUse src =>
                    exfalso
                    simp [storeMatchInstr] at hm1
                | otherUse =>
                    left; simp [scanInitInstrs]
          · rcases ih hm2 s with hs | hs
            · left; simpa [scanInitInstrs, hg] using hs
            · right; simpa [scanInitInstrs, hg] using hs
      | debugValue d o =>
          rcases ih hm2 s with hs | hs
          · left; simpa [scanInitInstrs] using hs
          · right; simpa [scanInitInstrs] using hs
      | applyInst a =>
          rcases ih hm2 s with hs | hs
          · left; simpa [scanInitInstrs] using hs
          · right; simpa [scanInitInstrs] using hs
      | otherInst =>
          rcases ih hm2 s with hs | hs
          · left; simpa [scanInitInstrs] using hs
          · right; simpa [scanInitInstrs] using hs

/-- With no structural match anywhere, the initialize-once search either
crashes or finishes unsuccessfully with the session untouched. -/
theorem initOnceLoop_no_match (gid : Nat) : ∀ (fns : List SILFunction),
    hasStructMatch fns gid = false → ∀ (s : EvalState),
    initOnceLoop gid fns s = none ∨ initOnceLoop gid fns s = some (false, s) := by
  intro fns
  induction fns with
  | nil => intro _ s; right; rfl
  | cons fn rest ih =>
      intro hm s
      rw [hasStructMatch, List.any_cons] at hm
      obtain ⟨hm1, hm2⟩ := Bool.or_eq_false_iff.mp hm
      have hm2' : hasStructMatch rest gid = false := hm2
      by_cases hv : fn.varOfGlobalInit = some gid
      · cases hif : fn.initFn with
        | some blocks =>
            have hscan : blocks.flatten.any (storeMatchInstr gid) = false := by
              rw [hif] at hm1
              simpa [hv] using hm1
            rcases scanInitInstrs_no_match gid blocks.flatten hscan s with hs | hs
            · left; simp [initOnceLoop, hv, hif, hs]
            · rcases ih hm2' s with hl | hl
              · left; simp [initOnceLoop, hv, hif, hs, hl]
              · right; simp [initOnceLoop, hv, hif, hs, hl]
        | none =>
            rcases ih hm2' s with hl | hl
            · left; simp [initOnceLoop, hv, hif, hl]
            · right; simp [initOnceLoop, hv, hif, hl]
      · rcases ih hm2' s with hl | hl
        · left; simp [initOnceLoop, hv, hl]
        · right; simp [initOnceLoop, hv, hl]

/-- **C6** — confirmed.  When the initialize-once check finishes without
crashing, the `@const` global passes silently exactly when the module
scan found a constant store through the structural idiom, and otherwise
receives exactly one `require_const_initializer_for_const` at the
declaration's location; in particular, when no structural match exists
anywhere in the module, the scan cannot succeed. -/
theorem verifyInitializeOnce_diag (fns : List SILFunction) (g : SILGlobalVariable)
    (d : VarDecl) (s : EvalState) (b : Bool) (s' : EvalState)
    (h : initOnceLoop g.id fns s = some (b, s')) :
    verifyInitializeOnceGlobal fns g d s
        = some ((if b then []
            else [⟨d.loc, DiagKind.requireConstInitializerForConst⟩]), s')
      ∧ (hasStructMatch fns g.id = false → b = false ∧ s' = s) := by
  constructor
  · rw [verifyInitializeOnceGlobal, h]
    cases b <;> rfl
  · intro hm
    rcases initOnceLoop_no_match g.id fns hm s with hl | hl
    · rw [h] at hl; exact Option.noConfusion hl
    · rw [h] at hl
      injection hl with h1
      injection h1 with hb hs
      exact ⟨hb, hs⟩

/-- Witness for C6 on a concrete initialize-once global whose
sub-initializer stores a literal: the check passes silently. -/
theorem verifyInitializeOnce_diag_witness :
    initOnceLoop 5
        [⟨[], some 5, some [[Instr.globalAddr 5 (some (UseKind.storeUse (Value.intLit 3)))]]⟩]
        ⟨0, []⟩
      = some (true, ⟨1, [(Value.intLit 3, SymbolicValue.integer 3)]⟩) ∧
    verifyInitializeOnceGlobal
        [⟨[], some 5, some [[Instr.globalAddr 5 (some (UseKind.storeUse (Value.intLit 3)))]]⟩]
        ⟨5, some ⟨true, 11, 12⟩, none⟩ ⟨true, 11, 12⟩ ⟨0, []⟩
      = some ([], ⟨1, [(Value.intLit 3, SymbolicValue.integer 3)]⟩) :=
  ⟨rfl,
    (verifyInitializeOnce_diag
      [⟨[], some 5, some [[Instr.globalAddr 5 (some (UseKind.storeUse (Value.intLit 3)))]]⟩]
      ⟨5, some ⟨true, 11, 12⟩, none⟩ ⟨true, 11, 12⟩ ⟨0, []⟩ true
      ⟨1, [(Value.intLit 3, SymbolicValue.integer 3)]⟩ rfl).1⟩

/-- A parameter list with no `@const` parameter contributes no outcomes
and leaves the session untouched. -/
theorem callOutcomes_nonconst (a : ApplyData) : ∀ (ps : List ParamDecl),
    ps.any (·.isConstVal) = false → ∀ (i : Nat) (s : EvalState),
    callOutcomes a ps i s = ([], s) := by
  intro ps
  induction ps with
  | nil => intro _ i s; rfl
  | cons p rest ih =>
      intro h i s
      rw [List.any_cons] at h
      obtain ⟨h1, h2⟩ := Bool.or_eq_false_iff.mp h
      simp only [callOutcomes, h1, Bool.false_eq_true, if_false]
      exact ih h2 (i + 1) s

/-- The parameter loop, on a call with enough arguments (and enough
recoverable argument locations), emits exactly one
`require_const_arg_for_parameter` per `@const` parameter whose paired
argument does not evaluate to a constant, at the spec's per-argument
location, and nothing for other parameters. -/
theorem checkParamsLoop_eq_outcomes (a : ApplyData) : ∀ (ps : List ParamDecl) (i : Nat)
    (s : EvalState), i + ps.length ≤ a.args.length →
    (∀ L, a.argListLocs = some L → i + ps.length ≤ L.length) →
    checkParamsLoop a ps i s
      = some ((callOutcomes a ps i s).1.filterMap
          (fun ib => if ib.2 then none
            else some ⟨argLocRule a ib.1, DiagKind.requireConstArgForParameter⟩),
         (callOutcomes a ps i s).2) := by
  intro ps
  induction ps with
  | nil => intro i s _ _; rfl
  | cons p rest ih =>
      intro i s h1 h2
      rw [List.length_cons] at h1
      have hi : i < a.args.length := by omega
      rcases harg : a.args[i]? with _ | arg
      · exfalso
        have hsome := List.getElem?_eq_getElem hi
        rw [harg] at hsome
        exact Option.noConfusion hsome
      · have hgd : a.args.getD i (Value.intLit 0) = arg := by
          simp [List.getD_eq_getElem?_getD, harg]
        by_cases hp : p.isConstVal
        · rcases he : evaluate arg s with ⟨r, s1⟩
          have ih1 := ih (i + 1) s1 (by omega)
            (fun L hL => by have := h2 L hL; rw [List.length_cons] at this; omega)
          rcases hco : callOutcomes a rest (i + 1) s1 with ⟨os, s2⟩
          rw [hco] at ih1
          cases hb : r.isConstant
          · have hrule : applyArgLoc a i = some (argLocRule a i) := by
              cases hL : a.argListLocs with
              | none => simp [applyArgLoc, argLocRule, hL]
              | some L =>
                  have hiL : i < L.length := by
                    have := h2 L hL
                    rw [List.length_cons] at this
                    omega
                  simp [applyArgLoc, argLocRule, hL, List.getElem?_eq_getElem hiL,
                    List.getD_eq_getElem?_getD]
            simp only [checkParamsLoop, harg, hp, if_true, he, hb, Bool.false_eq_true,
              if_false, hrule, ih1, callOutcomes, hgd, hco, List.filterMap_cons]
          · simp only [checkParamsLoop, harg, hp, if_true, he, hb, ih1,
              callOutcomes, hgd, hco, List.filterMap_cons]
        · simp only [checkParamsLoop, harg, hp, Bool.false_eq_true, if_false, callOutcomes]
          exact ih (i + 1) s (by omega)
            (fun L hL => by have := h2 L hL; rw [List.length_cons] at this; omega)

/-- **C4** — confirmed.  For a call whose callee resolves to a
`FuncDecl` and whose arity fits, the check emits exactly one
`require_const_arg_for_parameter` per `@const` parameter whose paired
argument does not evaluate to a constant — one per offending argument,
never one for an argument paired with a non-`@const` parameter — at the
argument's own source location when the apply expression's argument
list is recoverable and at the call's overall location otherwise. -/
theorem verifyCallArguments_diag_per_argument (a : ApplyData) (fd : FuncDecl)
    (s : EvalState) (hcd : a.calleeDecl = some (some fd))
    (hlen : fd.parameters.length ≤ a.args.length)
    (hlocs : ∀ L, a.argListLocs = some L → fd.parameters.length ≤ L.length) :
    verifyCallArgumentsApply a s
      = some ((callOutcomes a fd.parameters 0 s).1.filterMap
          (fun ib => if ib.2 then none
            else some ⟨argLocRule a ib.1, DiagKind.requireConstArgForParameter⟩),
         (callOutcomes a fd.parameters 0 s).2) := by
  simp only [verifyCallArgumentsApply, hcd]
  by_cases hany : fd.parameters.any (·.isConstVal)
  · rw [if_pos hany]
    exact checkParamsLoop_eq_outcomes a fd.parameters 0 s (by omega)
      (fun L hL => by have := hlocs L hL; omega)
  · rw [if_neg hany]
    have hzero := callOutcomes_nonconst a fd.parameters
      (Bool.eq_false_iff.mpr hany) 0 s
    rw [hzero]
    simp

/-- Witness for C4: a callee with a `@const` first parameter and a
plain second one, applied to a runtime value and a literal; exactly one
diagnostic, at the call's location (no recoverable argument list). -/
theorem verifyCallArguments_diag_per_argument_witness :
    (⟨some (some ⟨[⟨true⟩, ⟨false⟩]⟩), [Value.runtimeVal 0, Value.intLit 5], 3, none⟩
        : ApplyData).calleeDecl = some (some ⟨[⟨true⟩, ⟨false⟩]⟩) ∧
    verifyCallArgumentsApply
        ⟨some (some ⟨[⟨true⟩, ⟨false⟩]⟩), [Value.runtimeVal 0, Value.intLit 5], 3, none⟩
        ⟨0, []⟩
      = some ([⟨3, DiagKind.requireConstArgForParameter⟩],
          ⟨1, [(Value.runtimeVal 0, SymbolicValue.unknown)]⟩) :=
  ⟨rfl,
    (verifyCallArguments_diag_per_argument
        ⟨some (some ⟨[⟨true⟩, ⟨false⟩]⟩), [Value.runtimeVal 0, Value.intLit 5], 3, none⟩
        ⟨[⟨true⟩, ⟨false⟩]⟩ ⟨0, []⟩ rfl (by decide)
        (fun L hL => Option.noConfusion hL)).trans rfl⟩

/-- Witness for C8: a nested aggregate queried at the ceiling evaluates
to `unknown`. -/
theorem evaluate_total_and_bounded_witness :
    cacheLookup ([] : List (Value × SymbolicValue))
        (Value.structMake [Value.structMake [Value.intLit 0]]) = none ∧
    evalLimit ≤ 512 ∧
    (evaluate (Value.structMake [Value.structMake [Value.intLit 0]]) ⟨512, []⟩).2.counter
        ≤ 512 + sizeOf (Value.structMake [Value.structMake [Value.intLit 0]]) ∧
    (evaluate (Value.structMake [Value.structMake [Value.intLit 0]]) ⟨512, []⟩).1
        = SymbolicValue.unknown :=
  ⟨rfl, by decide,
    (evaluate_total_and_bounded (Value.structMake [Value.structMake [Value.intLit 0]])
      ⟨512, []⟩).1,
    (evaluate_total_and_bounded (Value.structMake [Value.structMake [Value.intLit 0]])
      ⟨512, []⟩).2 rfl (by decide)⟩

end CTV
